import Mathlib

/-!
Shallow embedding of the tagzen media-tagging core (tv.rs, utils.rs, music.rs).
Strings are modelled as `List Char`; Rust `usize` as `Nat` with an explicit
`≤ 2^64 - 1` bound where overflow matters; a panicking computation is modelled
as an `Option` returning `none`.  The regex machinery of the source is
specialised to the three concrete patterns the code compiles
(`SEASON_REGEX`, `EPISODE_REGEX`, `NUMBER_REGEX`), with the regex crate's
leftmost-first match semantics made explicit; case-insensitivity is modelled
by ASCII case folding, which agrees with the source on ASCII input.
-/

set_option maxRecDepth 8000

deriving instance DecidableEq for Except

namespace Tagzen

/-- Characters of a string literal; used to state concrete facts. -/
def toL (s : String) : List Char := s.data

/-- Rust `str::split('.')` collected into a vector of segments. -/
def splitDot : List Char → List (List Char)
| [] => [[]]
| c :: rest =>
  if c = '.' then [] :: splitDot rest
  else
    match splitDot rest with
    | [] => [[c]]
    | h :: t => (c :: h) :: t

/-- Rust `[&str]::join(".")`: interleave a dot between the segments. -/
def joinDot : List (List Char) → List Char
| [] => []
| [x] => x
| x :: y :: rest => x ++ '.' :: joinDot (y :: rest)

end Tagzen

namespace Tagzen.Utils

/-- utils.rs `cap_filename_ext`: split on `.`; the stem is every segment but
the last joined with `.` (empty when there is a single segment), the
extension is `.` followed by the last segment when more than one segment
exists. -/
def cap_filename_ext (file_path : List Char) : List Char × Option (List Char) :=
  let split := splitDot file_path
  (joinDot split.dropLast,
    if split.length > 1 then some ('.' :: split.getLastD []) else none)

/-- Characters collapsed by `TO_SPACE_REGEX` `(\.|-| )+`. -/
def isSepChar (c : Char) : Bool := c = '.' || c = '-' || c = ' '

/-- Whitespace trimmed by Rust `str::trim`, modelled by its ASCII members. -/
def isWS (c : Char) : Bool := c = ' ' || c = '\t' || c = '\n' || c = '\r'

/-- `Regex::replace_all` with `TO_SPACE_REGEX` and `" "`: every maximal run of
`.`/`-`/space becomes a single space.  The boolean records whether the scanner
is inside a run already replaced. -/
def collapseGo : Bool → List Char → List Char
| _, [] => []
| inRun, c :: rest =>
  if isSepChar c then
    if inRun then collapseGo true rest else ' ' :: collapseGo true rest
  else c :: collapseGo false rest

/-- Trailing-whitespace trimming. -/
def trimRight : List Char → List Char
| [] => []
| c :: rest =>
  match trimRight rest with
  | [] => if isWS c then [] else [c]
  | r => c :: r

/-- Rust `str::trim`. -/
def trim (s : List Char) : List Char := trimRight (s.dropWhile isWS)

/-- utils.rs `format_name`: replace separator runs, then trim. -/
def format_name (name : List Char) : List Char := trim (collapseGo false name)

end Tagzen.Utils

namespace Tagzen.Tv

open Tagzen

/-- tv.rs `cap_filename_ext`: the stem is the FIRST dot-separated segment
(`split[0]`), the extension is `.` followed by the remaining segments joined
with `.` when more than one segment exists. -/
def cap_filename_ext (file_path : List Char) : List Char × Option (List Char) :=
  match splitDot file_path with
  | [] => ([], none)
  | h :: t => (h, if t = [] then none else some ('.' :: joinDot t))

/-- Case-insensitive literal match: on success, the rest of the input after
the literal.  Models the letter atoms of the `(?i)` marker regexes. -/
def stripCI : List Char → List Char → Option (List Char)
| [], s => some s
| _ :: _, [] => none
| p :: ps, c :: cs => if c.toLower = p.toLower then stripCI ps cs else none

/-- One expansion of the marker regex's optional groups anchored at the head
of `s`: the literal `alt`, then greedy `' '*`, then greedy `[0-9]+` (at least
one digit).  Returns the matched span. -/
def matchAlt (alt s : List Char) : Option (List Char) :=
  match stripCI alt s with
  | none => none
  | some rest =>
    if (rest.dropWhile (fun c => c = ' ')).takeWhile Char.isDigit = [] then none
    else some (s.take alt.length ++ rest.takeWhile (fun c => c = ' ') ++
      (rest.dropWhile (fun c => c = ' ')).takeWhile Char.isDigit)

/-- The marker regex anchored at the head of `s`: try the expansions of the
optional groups in the regex engine's preference order. -/
def matchAlts : List (List Char) → List Char → Option (List Char)
| [], _ => none
| a :: rest, s =>
  match matchAlt a s with
  | some m => some m
  | none => matchAlts rest s

/-- `Regex::find`: the match at the leftmost position where one begins. -/
def findMarker (alts : List (List Char)) : List Char → Option (List Char)
| [] => none
| c :: rest =>
  match matchAlts alts (c :: rest) with
  | some m => some m
  | none => findMarker alts rest

/-- Expansions of `EPISODE_REGEX` `(?i)(e(p(isode)?)? *[0-9]+){1}` in
preference order. -/
def episodeAlts : List (List Char) := [toL "episode", toL "ep", toL "e"]

/-- Expansions of `SEASON_REGEX` `(?i)(s(eason)? *[0-9]+){1}` in preference
order. -/
def seasonAlts : List (List Char) := [toL "season", toL "s"]

/-- Largest value of `usize` on the 64-bit targets the service runs on. -/
def USIZE_MAX : Nat := 2 ^ 64 - 1

/-- Numeric value of a digit string (`str::parse` on digits, unbounded). -/
def parseNat (ds : List Char) : Nat := ds.foldl (fun n c => n * 10 + (c.toNat - 48)) 0

/-- `NUMBER_REGEX` `[0-9]+` find: leftmost maximal run of digits. -/
def numFind : List Char → Option (List Char)
| [] => none
| c :: rest =>
  if c.isDigit then some (c :: rest.takeWhile Char.isDigit) else numFind rest

/-- tv.rs `cap_num`: first digit run of the matched text, parsed as `usize`.
`none` models a panic: either unwrap failing (no digit run) or `parse`
overflowing the machine word. -/
def cap_num (captured : List Char) : Option Nat :=
  match numFind captured with
  | none => none
  | some ds => if parseNat ds ≤ USIZE_MAX then some (parseNat ds) else none

/-- tv.rs `CaptureError`. -/
inductive CaptureError where
| NoSeasonRegex
| NoEpisodeRegex
deriving DecidableEq, Repr

/-- tv.rs `cap_episode`; the outer `none` models a panic inside `cap_num`. -/
def cap_episode (filename : List Char) : Option (Except CaptureError Nat) :=
  match findMarker episodeAlts filename with
  | some m => (cap_num m).map Except.ok
  | none => some (Except.error CaptureError.NoEpisodeRegex)

/-- tv.rs `cap_season`; the outer `none` models a panic inside `cap_num`. -/
def cap_season (filename : List Char) : Option (Except CaptureError Nat) :=
  match findMarker seasonAlts filename with
  | some m => (cap_num m).map Except.ok
  | none => some (Except.error CaptureError.NoSeasonRegex)

/-- tv.rs `Context`. -/
structure Context where
  episode : Option Nat
  season : Option Nat
deriving DecidableEq, Repr

/-- tv.rs `Capture`. -/
structure Capture where
  file_path : List Char
  filename : List Char
  ext : Option (List Char)
  episode : Nat
  season : Nat
deriving DecidableEq, Repr

/-- tv.rs `Capture::new`.  The Rust struct literal evaluates its fields in
written order, so the `episode` field (and its `?` early return) is evaluated
BEFORE the `season` field; the outer `none` models a panic propagated from
`cap_num`. -/
def Capture.new (file_path : List Char) (context : Context) : Option (Except CaptureError Capture) :=
  let fe := cap_filename_ext file_path
  let filename := fe.1
  let ext := fe.2
  match (match context.episode with
         | some ep => some (Except.ok ep)
         | none => cap_episode filename) with
  | none => none
  | some (Except.error e) => some (Except.error e)
  | some (Except.ok episode) =>
    match (match context.season with
           | some se => some (Except.ok se)
           | none => cap_season filename) with
    | none => none
    | some (Except.error e) => some (Except.error e)
    | some (Except.ok season) =>
      some (Except.ok
        { file_path := file_path, filename := filename, ext := ext,
          episode := episode, season := season })

end Tagzen.Tv

namespace Tagzen.Music

open Tagzen

/-- music.rs `SingleSong`. -/
structure SingleSong where
  file_path : List Char
  name : List Char
  render : List Char
  ext : Option (List Char)
  artist : Option (List Char)
  album : Option (List Char)
deriving DecidableEq, Repr

/-- The `" — "` separator (space, em dash, space) of the render format. -/
def emDashSep : List Char := [' ', '—', ' ']

/-- The artist part of the render: the normalized artist, or the fixed
placeholder when absent (music.rs `SingleSong::new`, first `match`). -/
def artistSeg : Option (List Char) → List Char
| some a => Utils.format_name a
| none => toL "Unknown artist"

/-- The album part of the render (music.rs `SingleSong::new`, second
`match`): empty when absent or when the RAW supplied album equals the
normalized name, otherwise `" — "` followed by the normalized album. -/
def albumSeg (album : Option (List Char)) (name : List Char) : List Char :=
  match album with
  | some al => if al ≠ name then emDashSep ++ Utils.format_name al else []
  | none => []

/-- music.rs `SingleSong::new`.  Note: the album comparison is between the
RAW supplied album and the normalized name, and the stored `artist`/`album`
fields are the raw supplied values. -/
def SingleSong.new (file_path : List Char) (artist album : Option (List Char)) : SingleSong :=
  let fe := Utils.cap_filename_ext file_path
  let name := Utils.format_name fe.1
  { file_path := file_path, name := name,
    render := artistSeg artist ++ albumSeg album name ++ emDashSep ++ name,
    ext := fe.2, artist := artist, album := album }

end Tagzen.Music

namespace Tagzen

/-! ### Lemmas about the dot splitter -/

theorem splitDot_ne_nil (s : List Char) : splitDot s ≠ [] := by
  cases s with
  | nil => simp [splitDot]
  | cons c rest =>
    simp only [splitDot]
    split
    · simp
    · split <;> simp

theorem joinDot_splitDot (s : List Char) : joinDot (splitDot s) = s := by
  induction s with
  | nil => rfl
  | cons c rest ih =>
    simp only [splitDot]
    by_cases hc : c = '.'
    · rw [if_pos hc]
      cases h : splitDot rest with
      | nil => exact absurd h (splitDot_ne_nil rest)
      | cons hd t =>
        rw [h] at ih
        simp only [joinDot, List.nil_append, hc, ih]
    · rw [if_neg hc]
      cases h : splitDot rest with
      | nil => exact absurd h (splitDot_ne_nil rest)
      | cons hd t =>
        rw [h] at ih
        cases t with
        | nil => simp only [joinDot] at ih ⊢; rw [ih]
        | cons y ys =>
          simp only [joinDot, List.cons_append] at ih ⊢
          rw [ih]

theorem length_splitDot (s : List Char) : (splitDot s).length = s.count '.' + 1 := by
  induction s with
  | nil => simp [splitDot]
  | cons c rest ih =>
    simp only [splitDot]
    by_cases hc : c = '.'
    · rw [if_pos hc]
      subst hc
      rw [List.count_cons_self]
      simp only [List.length_cons, ih]
    · rw [if_neg hc]
      cases h : splitDot rest with
      | nil => exact absurd h (splitDot_ne_nil rest)
      | cons hd t =>
        rw [h] at ih
        have hne : ('.' : Char) ≠ c := fun hh => hc hh.symm
        rw [List.count_cons_of_ne hne]
        simp only [List.length_cons] at ih ⊢
        omega

theorem not_dot_mem_splitDot (s : List Char) : ∀ x ∈ splitDot s, '.' ∉ x := by
  induction s with
  | nil => intro x hx; simp [splitDot] at hx; simp [hx]
  | cons c rest ih =>
    intro x hx
    simp only [splitDot] at hx
    by_cases hc : c = '.'
    · rw [if_pos hc] at hx
      rcases List.mem_cons.mp hx with h | h
      · simp [h]
      · exact ih x h
    · rw [if_neg hc] at hx
      cases h : splitDot rest with
      | nil => exact absurd h (splitDot_ne_nil rest)
      | cons hd t =>
        rw [h] at hx
        rcases List.mem_cons.mp hx with h1 | h1
        · subst h1
          intro hmem
          rcases List.mem_cons.mp hmem with h2 | h2
          · exact hc h2.symm
          · exact ih hd (h ▸ List.mem_cons_self hd t) h2
        · exact ih x (h ▸ List.mem_cons_of_mem hd h1)

theorem getLastD_mem {α : Type} (l : List α) (d : α) (h : l ≠ []) : l.getLastD d ∈ l := by
  induction l generalizing d with
  | nil => exact absurd rfl h
  | cons a t ih =>
    cases t with
    | nil => simp [List.getLastD]
    | cons b u =>
      have : (a :: b :: u).getLastD d = (b :: u).getLastD a := by
        simp [List.getLastD]
      rw [this]
      exact List.mem_cons_of_mem a (ih a (by simp))

theorem joinDot_dropLast_getLastD (a b : List Char) (t : List (List Char)) :
    joinDot (a :: b :: t) =
      joinDot ((a :: b :: t).dropLast) ++ '.' :: (a :: b :: t).getLastD [] := by
  induction t generalizing a b with
  | nil => simp [joinDot, List.getLastD]
  | cons x xs ih =>
    have h1 : joinDot (a :: b :: x :: xs) = a ++ '.' :: joinDot (b :: x :: xs) := rfl
    have h2 : (a :: b :: x :: xs).dropLast = a :: (b :: x :: xs).dropLast := by
      simp [List.dropLast]
    have h3 : (a :: b :: x :: xs).getLastD [] = (b :: x :: xs).getLastD [] := by
      simp [List.getLastD]
    rw [h1, ih b x, h2, h3]
    have h4 : (b :: x :: xs).dropLast = b :: (x :: xs).dropLast := by
      simp [List.dropLast]
    rw [h4]
    simp [joinDot]

theorem dot_mem_joinDot (l : List (List Char)) (h : 2 ≤ l.length) : '.' ∈ joinDot l := by
  match l, h with
  | a :: b :: t, _ =>
    show '.' ∈ a ++ '.' :: joinDot (b :: t)
    exact List.mem_append_right a (List.mem_cons_self _ _)

theorem dot_mem_iff_splitDot_length (s : List Char) :
    '.' ∈ s ↔ 1 < (splitDot s).length := by
  rw [length_splitDot]
  constructor
  · intro h
    have := List.count_pos_iff.mpr h
    omega
  · intro h
    have : 0 < s.count '.' := by omega
    exact List.count_pos_iff.mp this

/-- On an input containing a dot, utils.rs `cap_filename_ext` splits at the
LAST dot: the pair it returns, the round trip, and dot-freeness of the last
segment. -/
theorem utils_last_dot (s : List Char) (h : '.' ∈ s) :
    Utils.cap_filename_ext s =
      (joinDot ((splitDot s).dropLast), some ('.' :: (splitDot s).getLastD [])) ∧
    joinDot ((splitDot s).dropLast) ++ '.' :: (splitDot s).getLastD [] = s ∧
    '.' ∉ (splitDot s).getLastD [] := by
  have hlen : 1 < (splitDot s).length := (dot_mem_iff_splitDot_length s).mp h
  refine ⟨?_, ?_, ?_⟩
  · simp only [Utils.cap_filename_ext]
    rw [if_pos hlen]
  · have hjoin := joinDot_splitDot s
    cases hsp : splitDot s with
    | nil => exact absurd hsp (splitDot_ne_nil s)
    | cons a l =>
      cases l with
      | nil => rw [hsp] at hlen; simp at hlen
      | cons b t =>
        rw [hsp] at hjoin
        rw [← joinDot_dropLast_getLastD a b t]
        exact hjoin
  · exact not_dot_mem_splitDot s _ (getLastD_mem _ [] (splitDot_ne_nil s))

/-- C2 (counterexample): the claim's single-segment clause fails for
utils.rs `cap_filename_ext` (on "plainname" the stem is empty, not the whole
input), and its multi-segment clause fails for the tv.rs splitter (on "a.b.c"
the stem is "a", not "a.b"). -/
theorem c2_counterexample :
    (Utils.cap_filename_ext (toL "plainname")).1 ≠ toL "plainname" ∧
    (Tv.cap_filename_ext (toL "a.b.c")).1 ≠ toL "a.b" := by
  constructor <;> decide

/-- C2 (amended): for utils.rs `cap_filename_ext`, when the input contains a
dot the last-dot rule holds: the extension is `.` followed by the dot-free
last segment and stem ++ extension reproduces the input; when the input has
no dot the extension is absent but the stem is the EMPTY string, not the
whole input. -/
theorem c2_theorem (s : List Char) :
    ('.' ∉ s → Utils.cap_filename_ext s = ([], none)) ∧
    ('.' ∈ s → ∃ t e, Utils.cap_filename_ext s = (t, some ('.' :: e)) ∧
      t ++ '.' :: e = s ∧ '.' ∉ e) := by
  constructor
  · intro h
    have hc : s.count '.' = 0 := List.count_eq_zero.mpr h
    have hlen : (splitDot s).length = 1 := by
      have := length_splitDot s
      omega
    obtain ⟨x, hx⟩ := List.length_eq_one.mp hlen
    simp [Utils.cap_filename_ext, hx, joinDot]
  · intro h
    obtain ⟨heq, hrt, hnd⟩ := utils_last_dot s h
    exact ⟨joinDot ((splitDot s).dropLast), (splitDot s).getLastD [], heq, hrt, hnd⟩

/-- C2 witness: the amended claim evaluated on "plainname" and "a.b.c". -/
theorem c2_witness :
    Utils.cap_filename_ext (toL "plainname") = ([], none) ∧
    (∃ t e, Utils.cap_filename_ext (toL "a.b.c") = (t, some ('.' :: e)) ∧
      t ++ '.' :: e = toL "a.b.c" ∧ '.' ∉ e) :=
  ⟨(c2_theorem (toL "plainname")).1 (by decide),
   (c2_theorem (toL "a.b.c")).2 (by decide)⟩

/-- C3 (counterexample): the tv.rs splitter and utils.rs splitter disagree on
"a.b.c" (first-dot split versus last-dot split). -/
theorem c3_counterexample :
    Tv.cap_filename_ext (toL "a.b.c") ≠ Utils.cap_filename_ext (toL "a.b.c") := by
  decide

/-- C3 (amended): the two splitters agree exactly on the empty string and on
strings containing exactly one dot; on every other input they differ (on a
dot-free nonempty input utils.rs returns an empty stem while tv.rs returns
the whole input; with two or more dots they split at different dots). -/
theorem c3_theorem (s : List Char) :
    Tv.cap_filename_ext s = Utils.cap_filename_ext s ↔ (s = [] ∨ s.count '.' = 1) := by
  have hlen := length_splitDot s
  have hjoin := joinDot_splitDot s
  cases hsp : splitDot s with
  | nil => exact absurd hsp (splitDot_ne_nil s)
  | cons a l =>
    rw [hsp] at hlen hjoin
    cases l with
    | nil =>
      have hc : s.count '.' = 0 := by simp at hlen; omega
      have ha : a = s := by simpa [joinDot] using hjoin
      constructor
      · intro heq
        have hx : a = [] := by
          simpa [Tv.cap_filename_ext, Utils.cap_filename_ext, hsp, joinDot] using heq
        left
        rw [← ha, hx]
      · intro hor
        rcases hor with h0 | h1
        · have hx : a = [] := by rw [ha, h0]
          simp [Tv.cap_filename_ext, Utils.cap_filename_ext, hsp, hx, joinDot]
        · omega
    | cons b l2 =>
      cases l2 with
      | nil =>
        have hc : s.count '.' = 1 := by simp at hlen; omega
        constructor
        · intro _
          right
          exact hc
        · intro _
          simp [Tv.cap_filename_ext, Utils.cap_filename_ext, hsp, joinDot, List.getLastD]
      | cons c' l3 =>
        have hc : 2 ≤ s.count '.' := by simp at hlen; omega
        constructor
        · intro heq
          exfalso
          have h1 : (Tv.cap_filename_ext s).1 = a := by
            simp [Tv.cap_filename_ext, hsp]
          have hndot : '.' ∉ a := not_dot_mem_splitDot s a (hsp ▸ List.mem_cons_self _ _)
          have h2 : (Utils.cap_filename_ext s).1 = joinDot ((a :: b :: c' :: l3).dropLast) := by
            simp [Utils.cap_filename_ext, hsp]
          have hdl : 2 ≤ ((a :: b :: c' :: l3).dropLast).length := by
            rw [List.length_dropLast]
            simp only [List.length_cons]
            omega
          have hdot : '.' ∈ (Utils.cap_filename_ext s).1 := by
            rw [h2]
            exact dot_mem_joinDot _ hdl
          have hfst := congrArg Prod.fst heq
          rw [h1] at hfst
          rw [← hfst] at hdot
          exact hndot hdot
        · intro hor
          rcases hor with h0 | h1
          · exfalso
            rw [h0] at hsp
            simp [splitDot] at hsp
          · omega

/-- C8 (confirmed): for every input containing a dot, re-joining the stem and
the extension returned by the Filename Splitter reproduces the input exactly;
this holds for the utils.rs splitter and the tv.rs splitter alike. -/
theorem c8_theorem (s : List Char) (h : '.' ∈ s) :
    (Utils.cap_filename_ext s).1 ++ (Utils.cap_filename_ext s).2.getD [] = s ∧
    (Tv.cap_filename_ext s).1 ++ (Tv.cap_filename_ext s).2.getD [] = s := by
  constructor
  · obtain ⟨heq, hrt, -⟩ := utils_last_dot s h
    rw [heq]
    simpa using hrt
  · have hlen : 1 < (splitDot s).length := (dot_mem_iff_splitDot_length s).mp h
    have hjoin := joinDot_splitDot s
    cases hsp : splitDot s with
    | nil => exact absurd hsp (splitDot_ne_nil s)
    | cons a l =>
      rw [hsp] at hlen hjoin
      cases l with
      | nil => simp at hlen
      | cons b t =>
        simp only [Tv.cap_filename_ext, hsp]
        simpa [joinDot] using hjoin

/-! ### Lemmas about the name normalizer -/

/-- Output shape of the separator-collapsing pass: every separator character
is a single space followed by a non-separator (or the end). -/
def Utils.spaced : List Char → Prop
| [] => True
| [c] => Utils.isSepChar c = true → c = ' '
| c :: d :: rest =>
  (Utils.isSepChar c = true → c = ' ' ∧ Utils.isSepChar d = false) ∧
    Utils.spaced (d :: rest)

theorem Utils.spaced_head (c : Char) (rest : List Char) (h : Utils.spaced (c :: rest))
    (hs : Utils.isSepChar c = true) : c = ' ' := by
  cases rest with
  | nil => exact h hs
  | cons d t => exact (h.1 hs).1

theorem Utils.spaced_tail (c : Char) (rest : List Char) (h : Utils.spaced (c :: rest)) :
    Utils.spaced rest := by
  cases rest with
  | nil => trivial
  | cons d t => exact h.2

theorem Utils.spaced_next (c d : Char) (t : List Char) (h : Utils.spaced (c :: d :: t))
    (hs : Utils.isSepChar c = true) : Utils.isSepChar d = false :=
  (h.1 hs).2

theorem Utils.collapseGo_true_head (s : List Char) :
    ∀ d t, Utils.collapseGo true s = d :: t → Utils.isSepChar d = false := by
  induction s with
  | nil => intro d t h; simp [Utils.collapseGo] at h
  | cons c rest ih =>
    intro d t h
    by_cases hc : Utils.isSepChar c = true
    · rw [show Utils.collapseGo true (c :: rest) = Utils.collapseGo true rest by
        simp [Utils.collapseGo, hc]] at h
      exact ih d t h
    · rw [show Utils.collapseGo true (c :: rest) = c :: Utils.collapseGo false rest by
        simp [Utils.collapseGo, hc]] at h
      cases h
      simpa using hc

theorem Utils.spaced_collapseGo (s : List Char) : ∀ b, Utils.spaced (Utils.collapseGo b s) := by
  induction s with
  | nil => intro b; simp [Utils.collapseGo, Utils.spaced]
  | cons c rest ih =>
    intro b
    by_cases hc : Utils.isSepChar c = true
    · cases b with
      | true =>
        rw [show Utils.collapseGo true (c :: rest) = Utils.collapseGo true rest by
          simp [Utils.collapseGo, hc]]
        exact ih true
      | false =>
        rw [show Utils.collapseGo false (c :: rest) = ' ' :: Utils.collapseGo true rest by
          simp [Utils.collapseGo, hc]]
        cases hx : Utils.collapseGo true rest with
        | nil => simp [Utils.spaced]
        | cons d t =>
          refine ⟨fun _ => ⟨rfl, Utils.collapseGo_true_head rest d t hx⟩, ?_⟩
          rw [← hx]
          exact ih true
    · rw [show Utils.collapseGo b (c :: rest) = c :: Utils.collapseGo false rest by
        simp [Utils.collapseGo, hc]]
      cases hx : Utils.collapseGo false rest with
      | nil => simp [Utils.spaced, hc]
      | cons d t =>
        refine ⟨fun hcc => absurd hcc (by simp [hc]), ?_⟩
        rw [← hx]
        exact ih false

theorem Utils.collapseGo_fix (s : List Char) (h : Utils.spaced s) :
    Utils.collapseGo false s = s := by
  induction s with
  | nil => rfl
  | cons c rest ih =>
    by_cases hc : Utils.isSepChar c = true
    · have hsp : c = ' ' := Utils.spaced_head c rest h hc
      rw [show Utils.collapseGo false (c :: rest) = ' ' :: Utils.collapseGo true rest by
        simp [Utils.collapseGo, hc]]
      rw [← hsp]
      cases rest with
      | nil => rfl
      | cons d t =>
        have hd : Utils.isSepChar d = false := Utils.spaced_next c d t h hc
        have h1 : Utils.collapseGo true (d :: t) = d :: Utils.collapseGo false t := by
          simp [Utils.collapseGo, hd]
        have h2 : Utils.collapseGo false (d :: t) = d :: Utils.collapseGo false t := by
          simp [Utils.collapseGo, hd]
        rw [h1, ← h2, ih (Utils.spaced_tail c _ h)]
    · rw [show Utils.collapseGo false (c :: rest) = c :: Utils.collapseGo false rest by
        simp [Utils.collapseGo, hc]]
      rw [ih (Utils.spaced_tail c _ h)]

theorem Utils.spaced_dropWhile (p : Char → Bool) (s : List Char) (h : Utils.spaced s) :
    Utils.spaced (s.dropWhile p) := by
  induction s with
  | nil => exact h
  | cons c rest ih =>
    rw [List.dropWhile_cons]
    by_cases hp : p c = true
    · rw [if_pos hp]
      exact ih (Utils.spaced_tail c rest h)
    · rw [if_neg hp]
      exact h

theorem Utils.trimRight_head (s : List Char) :
    ∀ e r, Utils.trimRight s = e :: r → ∃ t, s = e :: t := by
  cases s with
  | nil => intro e r h; simp [Utils.trimRight] at h
  | cons c rest =>
    intro e r h
    simp only [Utils.trimRight] at h
    cases hx : Utils.trimRight rest with
    | nil =>
      rw [hx] at h
      by_cases hw : Utils.isWS c = true
      · simp [hw] at h
      · simp [hw] at h
        exact ⟨rest, by rw [h.1]⟩
    | cons d t =>
      rw [hx] at h
      cases h
      exact ⟨rest, rfl⟩

theorem Utils.spaced_trimRight (s : List Char) (h : Utils.spaced s) :
    Utils.spaced (Utils.trimRight s) := by
  induction s with
  | nil => exact h
  | cons c rest ih =>
    simp only [Utils.trimRight]
    cases hx : Utils.trimRight rest with
    | nil =>
      by_cases hw : Utils.isWS c = true
      · simp [hw, Utils.spaced]
      · simp only [hw]
        simp only [Bool.false_eq_true, if_false]
        exact fun hs => Utils.spaced_head c rest h hs
    | cons e r =>
      obtain ⟨t', ht'⟩ := Utils.trimRight_head rest e r hx
      have hrest : Utils.spaced (e :: r) := by
        rw [← hx]
        exact ih (Utils.spaced_tail c rest h)
      refine ⟨fun hs => ⟨Utils.spaced_head c rest h hs, ?_⟩, hrest⟩
      rw [ht'] at h
      exact Utils.spaced_next c e t' h hs

theorem Utils.trimRight_idem (s : List Char) :
    Utils.trimRight (Utils.trimRight s) = Utils.trimRight s := by
  induction s with
  | nil => rfl
  | cons c rest ih =>
    simp only [Utils.trimRight]
    cases hx : Utils.trimRight rest with
    | nil =>
      by_cases hw : Utils.isWS c = true
      · simp [hw, Utils.trimRight]
      · simp [hw, Utils.trimRight]
    | cons e r =>
      rw [hx] at ih
      show Utils.trimRight (c :: e :: r) = c :: e :: r
      rw [Utils.trimRight.eq_2, ih]

theorem Utils.dropWhile_head (p : Char → Bool) (s : List Char) :
    ∀ d t, s.dropWhile p = d :: t → p d = false := by
  induction s with
  | nil => intro d t h; simp at h
  | cons c rest ih =>
    intro d t h
    rw [List.dropWhile_cons] at h
    by_cases hp : p c = true
    · rw [if_pos hp] at h
      exact ih d t h
    · rw [if_neg hp] at h
      cases h
      simpa using hp

theorem Utils.trim_idem (s : List Char) : Utils.trim (Utils.trim s) = Utils.trim s := by
  unfold Utils.trim
  cases hz : Utils.trimRight (s.dropWhile Utils.isWS) with
  | nil => simp [Utils.trimRight]
  | cons d t =>
    obtain ⟨t', ht'⟩ := Utils.trimRight_head _ d t hz
    have hd : Utils.isWS d = false := Utils.dropWhile_head Utils.isWS s d t' ht'
    have hdw : (d :: t).dropWhile Utils.isWS = d :: t := by
      rw [List.dropWhile_cons, if_neg (by simp [hd])]
    rw [hdw, ← hz, Utils.trimRight_idem]

theorem Utils.trimRight_sublist (s : List Char) : (Utils.trimRight s).Sublist s := by
  induction s with
  | nil => simp [Utils.trimRight]
  | cons c rest ih =>
    simp only [Utils.trimRight]
    cases hx : Utils.trimRight rest with
    | nil =>
      by_cases hw : Utils.isWS c = true
      · simp [hw]
      · simp only [hw, Bool.false_eq_true, if_false]
        exact (List.nil_sublist rest).cons₂ c
    | cons e r =>
      rw [hx] at ih
      exact ih.cons₂ c

theorem Utils.collapseGo_no_dot_dash (s : List Char) :
    ∀ b, ∀ c ∈ Utils.collapseGo b s, c ≠ '.' ∧ c ≠ '-' := by
  induction s with
  | nil => intro b c hc; simp [Utils.collapseGo] at hc
  | cons x rest ih =>
    intro b c hc
    by_cases hx : Utils.isSepChar x = true
    · cases b with
      | true =>
        rw [show Utils.collapseGo true (x :: rest) = Utils.collapseGo true rest by
          simp [Utils.collapseGo, hx]] at hc
        exact ih true c hc
      | false =>
        rw [show Utils.collapseGo false (x :: rest) = ' ' :: Utils.collapseGo true rest by
          simp [Utils.collapseGo, hx]] at hc
        rcases List.mem_cons.mp hc with h | h
        · subst h; exact ⟨by decide, by decide⟩
        · exact ih true c h
    · rw [show Utils.collapseGo b (x :: rest) = x :: Utils.collapseGo false rest by
        simp [Utils.collapseGo, hx]] at hc
      rcases List.mem_cons.mp hc with h | h
      · subst h
        constructor
        · intro hh; rw [hh] at hx; exact hx (by decide)
        · intro hh; rw [hh] at hx; exact hx (by decide)
      · exact ih false c h

/-- C9 (confirmed): the Name Normalizer `format_name` is idempotent, and its
output carries no `.` or `-` characters (every separator run was replaced by
a single space). -/
theorem c9_theorem (s : List Char) :
    Utils.format_name (Utils.format_name s) = Utils.format_name s ∧
    '.' ∉ Utils.format_name s ∧ '-' ∉ Utils.format_name s := by
  have hsp : Utils.spaced (Utils.format_name s) := by
    unfold Utils.format_name Utils.trim
    exact Utils.spaced_trimRight _
      (Utils.spaced_dropWhile _ _ (Utils.spaced_collapseGo s false))
  refine ⟨?_, ?_, ?_⟩
  · show Utils.trim (Utils.collapseGo false (Utils.format_name s)) = Utils.format_name s
    rw [Utils.collapseGo_fix _ hsp]
    show Utils.trim (Utils.trim (Utils.collapseGo false s)) = Utils.trim (Utils.collapseGo false s)
    exact Utils.trim_idem _
  · intro hmem
    have h1 : '.' ∈ Utils.collapseGo false s := by
      have h2 := (Utils.trimRight_sublist ((Utils.collapseGo false s).dropWhile Utils.isWS)).mem hmem
      exact (List.dropWhile_sublist _).mem h2
    exact (Utils.collapseGo_no_dot_dash s false '.' h1).1 rfl
  · intro hmem
    have h1 : '-' ∈ Utils.collapseGo false s := by
      have h2 := (Utils.trimRight_sublist ((Utils.collapseGo false s).dropWhile Utils.isWS)).mem hmem
      exact (List.dropWhile_sublist _).mem h2
    exact (Utils.collapseGo_no_dot_dash s false '-' h1).2 rfl

/-- C8 witness: the round trip evaluated on "hello s01 e02 hi.mp4". -/
theorem c8_witness :
    (Utils.cap_filename_ext (toL "hello s01 e02 hi.mp4")).1 ++
      (Utils.cap_filename_ext (toL "hello s01 e02 hi.mp4")).2.getD [] =
      toL "hello s01 e02 hi.mp4" ∧
    (Tv.cap_filename_ext (toL "hello s01 e02 hi.mp4")).1 ++
      (Tv.cap_filename_ext (toL "hello s01 e02 hi.mp4")).2.getD [] =
      toL "hello s01 e02 hi.mp4" :=
  c8_theorem (toL "hello s01 e02 hi.mp4") (by decide)

/-! ### Capture resolution order and overrides -/

/-- C1 (counterexample): on "plainname" with no Context overrides (both
markers absent) `Capture::new` returns the EPISODE-unresolved error, not the
season-unresolved error the claim states. -/
theorem c1_counterexample :
    Tv.Capture.new (toL "plainname") ⟨none, none⟩ =
      some (Except.error Tv.CaptureError.NoEpisodeRegex) ∧
    Tv.Capture.new (toL "plainname") ⟨none, none⟩ ≠
      some (Except.error Tv.CaptureError.NoSeasonRegex) := by
  constructor <;> decide

/-- C1 (amended): `Capture::new` checks the EPISODE before the season and
short-circuits on the first failure: whenever no episode override is given
and the stem has no episode marker, it returns the episode-unresolved error
regardless of the season context (season resolution is never attempted after
an episode failure). -/
theorem c1_theorem (s : List Char) (seasonCtx : Option Nat)
    (h : Tv.findMarker Tv.episodeAlts (Tv.cap_filename_ext s).1 = none) :
    Tv.Capture.new s ⟨none, seasonCtx⟩ =
      some (Except.error Tv.CaptureError.NoEpisodeRegex) := by
  simp only [Tv.Capture.new, Tv.cap_episode, h]

/-- C1 witness: the amended claim on "plainname", with a season override
supplied to show season resolution cannot rescue the episode failure. -/
theorem c1_witness :
    Tv.Capture.new (toL "plainname") ⟨none, some 3⟩ =
      some (Except.error Tv.CaptureError.NoEpisodeRegex) :=
  c1_theorem (toL "plainname") (some 3) (by decide)

/-- C4 (confirmed): overrides always win: whenever `Capture::new` succeeds,
a supplied `Context.season` is returned verbatim as the capture's season and
a supplied `Context.episode` verbatim as its episode, whatever the file name
contains. -/
theorem c4_theorem (s : List Char) (context : Tv.Context) (cap : Tv.Capture)
    (h : Tv.Capture.new s context = some (Except.ok cap)) :
    (∀ v, context.season = some v → cap.season = v) ∧
    (∀ v, context.episode = some v → cap.episode = v) := by
  simp only [Tv.Capture.new] at h
  constructor
  · intro v hv
    split at h
    · exact Option.noConfusion h
    · simp at h
    · split at h
      · exact Option.noConfusion h
      · simp at h
      · rename_i season hS
        rw [hv] at hS
        simp at hS
        simp only [Option.some.injEq, Except.ok.injEq] at h
        rw [← h]
        exact hS.symm
  · intro v hv
    split at h
    · exact Option.noConfusion h
    · simp at h
    · rename_i episode hE
      rw [hv] at hE
      simp at hE
      split at h
      · exact Option.noConfusion h
      · simp at h
      · simp only [Option.some.injEq, Except.ok.injEq] at h
        rw [← h]
        exact hE.symm

/-- C4 witness: on "hiS01E04.ex" (which carries markers s01 and E04) the
overrides episode 7 and season 3 are returned verbatim. -/
theorem c4_witness :
    ∃ cap, Tv.Capture.new (toL "hiS01E04.ex") ⟨some 7, some 3⟩ =
        some (Except.ok cap) ∧ cap.season = 3 ∧ cap.episode = 7 := by
  refine ⟨⟨toL "hiS01E04.ex", toL "hiS01E04", some (toL ".ex"), 7, 3⟩, by decide, ?_, ?_⟩
  · exact (c4_theorem (toL "hiS01E04.ex") ⟨some 7, some 3⟩ _ (by decide)).1 3 rfl
  · exact (c4_theorem (toL "hiS01E04.ex") ⟨some 7, some 3⟩ _ (by decide)).2 7 rfl

/-! ### Lemmas about the numeric pattern extractor -/

theorem Tv.matchAlt_nil (alt : List Char) : Tv.matchAlt alt [] = none := by
  cases alt <;> rfl

theorem Tv.matchAlts_nil (alts : List (List Char)) : Tv.matchAlts alts [] = none := by
  induction alts with
  | nil => rfl
  | cons a rest ih =>
    simp only [Tv.matchAlts, Tv.matchAlt_nil a]
    exact ih

theorem Tv.findMarker_some_spec (alts : List (List Char)) (s m : List Char)
    (h : Tv.findMarker alts s = some m) :
    ∃ i, Tv.matchAlts alts (s.drop i) = some m ∧
      ∀ j, j < i → Tv.matchAlts alts (s.drop j) = none := by
  induction s with
  | nil => simp [Tv.findMarker] at h
  | cons c rest ih =>
    simp only [Tv.findMarker] at h
    cases hm : Tv.matchAlts alts (c :: rest) with
    | some m' =>
      rw [hm] at h
      simp only [Option.some.injEq] at h
      subst h
      exact ⟨0, hm, fun j hj => absurd hj (Nat.not_lt_zero j)⟩
    | none =>
      rw [hm] at h
      obtain ⟨i, h1, h2⟩ := ih h
      refine ⟨i + 1, by simpa [List.drop_succ_cons] using h1, ?_⟩
      intro j hj
      cases j with
      | zero => exact hm
      | succ k =>
        rw [List.drop_succ_cons]
        exact h2 k (Nat.lt_of_succ_lt_succ hj)

theorem Tv.findMarker_none_spec (alts : List (List Char)) (s : List Char)
    (h : Tv.findMarker alts s = none) :
    ∀ i, Tv.matchAlts alts (s.drop i) = none := by
  induction s with
  | nil =>
    intro i
    rw [List.drop_nil]
    exact Tv.matchAlts_nil alts
  | cons c rest ih =>
    intro i
    simp only [Tv.findMarker] at h
    cases hm : Tv.matchAlts alts (c :: rest) with
    | some m' => rw [hm] at h; exact Option.noConfusion h
    | none =>
      rw [hm] at h
      cases i with
      | zero => exact hm
      | succ k =>
        rw [List.drop_succ_cons]
        exact ih h k

theorem Tv.findMarker_none_iff (alts : List (List Char)) (s : List Char) :
    Tv.findMarker alts s = none ↔ ∀ i, Tv.matchAlts alts (s.drop i) = none := by
  constructor
  · exact Tv.findMarker_none_spec alts s
  · intro hall
    cases hf : Tv.findMarker alts s with
    | none => rfl
    | some m =>
      obtain ⟨i, h1, -⟩ := Tv.findMarker_some_spec alts s m hf
      rw [hall i] at h1
      exact Option.noConfusion h1

theorem Tv.matchAlt_has_digit (alt s m : List Char) (h : Tv.matchAlt alt s = some m) :
    ∃ c ∈ m, c.isDigit = true := by
  unfold Tv.matchAlt at h
  split at h
  · exact Option.noConfusion h
  · split at h
    · exact Option.noConfusion h
    · rename_i rest heq hds
      simp only [Option.some.injEq] at h
      subst h
      obtain ⟨d, t, hdt⟩ := List.exists_cons_of_ne_nil hds
      refine ⟨d, ?_, ?_⟩
      · rw [hdt]
        exact List.mem_append_right _ (List.mem_cons_self d t)
      · exact List.mem_takeWhile_imp (hdt ▸ List.mem_cons_self d t)

theorem Tv.matchAlts_has_digit (alts : List (List Char)) (s m : List Char)
    (h : Tv.matchAlts alts s = some m) : ∃ c ∈ m, c.isDigit = true := by
  induction alts with
  | nil => simp [Tv.matchAlts] at h
  | cons a rest ih =>
    simp only [Tv.matchAlts] at h
    cases ha : Tv.matchAlt a s with
    | some m' =>
      rw [ha] at h
      simp only [Option.some.injEq] at h
      rw [← h]
      exact Tv.matchAlt_has_digit a s m' ha
    | none =>
      rw [ha] at h
      exact ih h

theorem Tv.numFind_some_of_digit (s : List Char) (hc : ∃ c ∈ s, c.isDigit = true) :
    ∃ ds, Tv.numFind s = some ds := by
  induction s with
  | nil => simp at hc
  | cons c rest ih =>
    by_cases hd : c.isDigit = true
    · exact ⟨c :: rest.takeWhile Char.isDigit, by simp [Tv.numFind, hd]⟩
    · obtain ⟨c', hmem, hdig⟩ := hc
      rcases List.mem_cons.mp hmem with h1 | h1
      · subst h1; exact absurd hdig hd
      · obtain ⟨ds, hds⟩ := ih ⟨c', h1, hdig⟩
        exact ⟨ds, by simp [Tv.numFind, hd, hds]⟩

theorem Tv.numFind_spec (s ds : List Char) (h : Tv.numFind s = some ds) :
    ∃ pre post, s = pre ++ ds ++ post ∧ (∀ c ∈ pre, c.isDigit = false) ∧ ds ≠ [] ∧
      (∀ c ∈ ds, c.isDigit = true) ∧ (∀ d t, post = d :: t → d.isDigit = false) := by
  induction s with
  | nil => simp [Tv.numFind] at h
  | cons c rest ih =>
    by_cases hd : c.isDigit = true
    · rw [show Tv.numFind (c :: rest) = some (c :: rest.takeWhile Char.isDigit) by
        simp [Tv.numFind, hd]] at h
      simp only [Option.some.injEq] at h
      subst h
      refine ⟨[], rest.dropWhile Char.isDigit, ?_, by simp, by simp, ?_, ?_⟩
      · simp [List.takeWhile_append_dropWhile]
      · intro x hx
        rcases List.mem_cons.mp hx with h1 | h1
        · rw [h1]; exact hd
        · exact List.mem_takeWhile_imp h1
      · intro d t hpost
        have := Utils.dropWhile_head Char.isDigit rest d t hpost
        exact this
    · rw [show Tv.numFind (c :: rest) = Tv.numFind rest by simp [Tv.numFind, hd]] at h
      obtain ⟨pre, post, h1, h2, h3, h4, h5⟩ := ih h
      refine ⟨c :: pre, post, by simp [h1], ?_, h3, h4, h5⟩
      intro x hx
      rcases List.mem_cons.mp hx with h6 | h6
      · rw [h6]; exact Bool.eq_false_iff.mpr hd
      · exact h2 x h6

theorem Tv.parseNat_replicate_zero (k : Nat) (ds : List Char) :
    Tv.parseNat (List.replicate k '0' ++ ds) = Tv.parseNat ds := by
  have h0 : ∀ n, List.foldl (fun a c => a * 10 + (c.toNat - 48)) 0
      (List.replicate n '0') = 0 := by
    intro n
    induction n with
    | zero => rfl
    | succ j ih =>
      rw [List.replicate_succ, List.foldl_cons]
      exact ih
  unfold Tv.parseNat
  rw [List.foldl_append, h0]

/-- A marker match always contains a digit run, and `numFind` locates the
first one. -/
theorem Tv.marker_digit_run (alts : List (List Char)) (s m : List Char)
    (h : Tv.findMarker alts s = some m) :
    ∃ ds pre post, Tv.numFind m = some ds ∧ m = pre ++ ds ++ post ∧
      (∀ c ∈ pre, c.isDigit = false) ∧ ds ≠ [] ∧ (∀ c ∈ ds, c.isDigit = true) ∧
      (∀ d t, post = d :: t → d.isDigit = false) := by
  obtain ⟨i, h1, -⟩ := Tv.findMarker_some_spec alts s m h
  obtain ⟨c, hc, hdig⟩ := Tv.matchAlts_has_digit alts _ m h1
  obtain ⟨ds, hds⟩ := Tv.numFind_some_of_digit m ⟨c, hc, hdig⟩
  obtain ⟨pre, post, ha, hb, hcc, hdd, he⟩ := Tv.numFind_spec m ds hds
  exact ⟨ds, pre, post, hds, ha, hb, hcc, hdd, he⟩

theorem Tv.cap_episode_error_iff (s : List Char) :
    Tv.cap_episode s = some (Except.error Tv.CaptureError.NoEpisodeRegex) ↔
      Tv.findMarker Tv.episodeAlts s = none := by
  unfold Tv.cap_episode
  cases hf : Tv.findMarker Tv.episodeAlts s with
  | none => simp
  | some m =>
    constructor
    · intro h
      have h' : (Tv.cap_num m).map Except.ok =
          some (Except.error Tv.CaptureError.NoEpisodeRegex) := h
      cases hcn : Tv.cap_num m with
      | none => rw [hcn] at h'; simp at h'
      | some v => rw [hcn] at h'; simp at h'
    · intro h
      exact Option.noConfusion h

theorem Tv.cap_season_error_iff (s : List Char) :
    Tv.cap_season s = some (Except.error Tv.CaptureError.NoSeasonRegex) ↔
      Tv.findMarker Tv.seasonAlts s = none := by
  unfold Tv.cap_season
  cases hf : Tv.findMarker Tv.seasonAlts s with
  | none => simp
  | some m =>
    constructor
    · intro h
      have h' : (Tv.cap_num m).map Except.ok =
          some (Except.error Tv.CaptureError.NoSeasonRegex) := h
      cases hcn : Tv.cap_num m with
      | none => rw [hcn] at h'; simp at h'
      | some v => rw [hcn] at h'; simp at h'
    · intro h
      exact Option.noConfusion h

/-- C5 (confirmed): numeric pattern extraction.  The statement bundles, for
each of the two marker patterns: (1) only the leftmost marker match is
considered — the returned match is the anchored match at some position before
which no position matches; (2) the extracted value is the first run of digit
characters inside that match (every character before the run is a non-digit,
the run is nonempty and maximal) parsed as a non-negative integer, with
leading zeros ignored numerically ("0002" parses to 2); (3) the field's
not-found error is returned exactly when the marker matches at no position of
the string. -/
theorem c5_theorem (s : List Char) :
    (∀ m, Tv.findMarker Tv.episodeAlts s = some m →
      (∃ i, Tv.matchAlts Tv.episodeAlts (s.drop i) = some m ∧
        ∀ j, j < i → Tv.matchAlts Tv.episodeAlts (s.drop j) = none) ∧
      (∃ ds pre post, m = pre ++ ds ++ post ∧ (∀ c ∈ pre, c.isDigit = false) ∧
        ds ≠ [] ∧ (∀ c ∈ ds, c.isDigit = true) ∧
        (∀ d t, post = d :: t → d.isDigit = false) ∧
        (Tv.parseNat ds ≤ Tv.USIZE_MAX →
          Tv.cap_episode s = some (Except.ok (Tv.parseNat ds))))) ∧
    (∀ m, Tv.findMarker Tv.seasonAlts s = some m →
      (∃ i, Tv.matchAlts Tv.seasonAlts (s.drop i) = some m ∧
        ∀ j, j < i → Tv.matchAlts Tv.seasonAlts (s.drop j) = none) ∧
      (∃ ds pre post, m = pre ++ ds ++ post ∧ (∀ c ∈ pre, c.isDigit = false) ∧
        ds ≠ [] ∧ (∀ c ∈ ds, c.isDigit = true) ∧
        (∀ d t, post = d :: t → d.isDigit = false) ∧
        (Tv.parseNat ds ≤ Tv.USIZE_MAX →
          Tv.cap_season s = some (Except.ok (Tv.parseNat ds))))) ∧
    (∀ k ds, Tv.parseNat (List.replicate k '0' ++ ds) = Tv.parseNat ds) ∧
    Tv.parseNat (toL "0002") = 2 ∧
    (Tv.cap_episode s = some (Except.error Tv.CaptureError.NoEpisodeRegex) ↔
      ∀ i, Tv.matchAlts Tv.episodeAlts (s.drop i) = none) ∧
    (Tv.cap_season s = some (Except.error Tv.CaptureError.NoSeasonRegex) ↔
      ∀ i, Tv.matchAlts Tv.seasonAlts (s.drop i) = none) := by
  refine ⟨?_, ?_, Tv.parseNat_replicate_zero, by decide, ?_, ?_⟩
  · intro m hm
    refine ⟨⟨(Tv.findMarker_some_spec _ s m hm).choose,
      (Tv.findMarker_some_spec _ s m hm).choose_spec⟩, ?_⟩
    obtain ⟨ds, pre, post, hnf, ha, hb, hc, hd, he⟩ := Tv.marker_digit_run _ s m hm
    refine ⟨ds, pre, post, ha, hb, hc, hd, he, ?_⟩
    intro hle
    simp [Tv.cap_episode, hm, Tv.cap_num, hnf, if_pos hle]
  · intro m hm
    refine ⟨⟨(Tv.findMarker_some_spec _ s m hm).choose,
      (Tv.findMarker_some_spec _ s m hm).choose_spec⟩, ?_⟩
    obtain ⟨ds, pre, post, hnf, ha, hb, hc, hd, he⟩ := Tv.marker_digit_run _ s m hm
    refine ⟨ds, pre, post, ha, hb, hc, hd, he, ?_⟩
    intro hle
    simp [Tv.cap_season, hm, Tv.cap_num, hnf, if_pos hle]
  · rw [Tv.cap_episode_error_iff]
    exact Tv.findMarker_none_iff _ s
  · rw [Tv.cap_season_error_iff]
    exact Tv.findMarker_none_iff _ s

/-- C5 witness: on "EPIsode2 and SEASOn 0002" the episode extractor returns
2 from the match "EPIsode2" and the season extractor returns 2 from the
digit run "0002" of the match "SEASOn 0002" (leading zeros ignored); on
"plainname" (no markers) both extractors return their not-found errors. -/
theorem c5_witness :
    Tv.cap_episode (toL "EPIsode2 and SEASOn 0002") = some (Except.ok 2) ∧
    Tv.cap_season (toL "EPIsode2 and SEASOn 0002") = some (Except.ok 2) ∧
    (Tv.cap_episode (toL "plainname") =
        some (Except.error Tv.CaptureError.NoEpisodeRegex) ↔
      ∀ i, Tv.matchAlts Tv.episodeAlts ((toL "plainname").drop i) = none) := by
  refine ⟨by decide, by decide, (c5_theorem (toL "plainname")).2.2.2.2.1⟩

/-! ### Overflow panic and conditional totality -/

theorem Tv.cap_episode_total (f : List Char)
    (h : ∀ m ds, Tv.findMarker Tv.episodeAlts f = some m → Tv.numFind m = some ds →
      Tv.parseNat ds ≤ Tv.USIZE_MAX) :
    Tv.cap_episode f ≠ none := by
  unfold Tv.cap_episode
  cases hf : Tv.findMarker Tv.episodeAlts f with
  | none => simp
  | some m =>
    obtain ⟨ds, pre, post, hnf, -, -, -, -, -⟩ := Tv.marker_digit_run _ f m hf
    have hle := h m ds hf hnf
    simp [Tv.cap_num, hnf, hle]

theorem Tv.cap_season_total (f : List Char)
    (h : ∀ m ds, Tv.findMarker Tv.seasonAlts f = some m → Tv.numFind m = some ds →
      Tv.parseNat ds ≤ Tv.USIZE_MAX) :
    Tv.cap_season f ≠ none := by
  unfold Tv.cap_season
  cases hf : Tv.findMarker Tv.seasonAlts f with
  | none => simp
  | some m =>
    obtain ⟨ds, pre, post, hnf, -, -, -, -, -⟩ := Tv.marker_digit_run _ f m hf
    have hle := h m ds hf hnf
    simp [Tv.cap_num, hnf, hle]

/-- C10 (confirmed): there is an input whose marker matches but whose digit
run exceeds the 64-bit machine word, on which resolution aborts abnormally
(modelled `none`) instead of returning a Capture or a typed CaptureError:
"ep99999999999999999999999.mp4" with no overrides.  (On the season-marker
variant "s99999999999999999999999.mp4" the abort lives in the season
extractor itself — `cap_season` of its stem panics — while `Capture::new`
with no overrides stops earlier with the episode-unresolved error, since the
episode field is resolved first.)  Conversely resolution is total whenever
every digit run the extractors would extract fits in the machine word. -/
theorem c10_theorem :
    Tv.Capture.new (toL "ep99999999999999999999999.mp4") ⟨none, none⟩ = none ∧
    Tv.cap_season (toL "s99999999999999999999999") = none ∧
    ∀ s context,
      (∀ m ds, Tv.findMarker Tv.episodeAlts (Tv.cap_filename_ext s).1 = some m →
        Tv.numFind m = some ds → Tv.parseNat ds ≤ Tv.USIZE_MAX) →
      (∀ m ds, Tv.findMarker Tv.seasonAlts (Tv.cap_filename_ext s).1 = some m →
        Tv.numFind m = some ds → Tv.parseNat ds ≤ Tv.USIZE_MAX) →
      Tv.Capture.new s context ≠ none := by
  refine ⟨by decide, by decide, ?_⟩
  intro s context hE hS hnone
  simp only [Tv.Capture.new] at hnone
  split at hnone
  · rename_i heq
    cases hce : context.episode with
    | some ep => rw [hce] at heq; exact Option.noConfusion heq
    | none =>
      rw [hce] at heq
      exact Tv.cap_episode_total _ hE heq
  · exact Option.noConfusion hnone
  · split at hnone
    · rename_i heq
      cases hcs : context.season with
      | some se => rw [hcs] at heq; exact Option.noConfusion heq
      | none =>
        rw [hcs] at heq
        exact Tv.cap_season_total _ hS heq
    · exact Option.noConfusion hnone
    · exact Option.noConfusion hnone

/-- C10 witness: the conditional-totality part applied to
"hello s01 e02 hi.mp4" with no overrides, whose digit runs 02 and 01
evidently fit in the machine word. -/
theorem c10_witness :
    Tv.Capture.new (toL "hello s01 e02 hi.mp4") ⟨none, none⟩ ≠ none := by
  have hE : ∀ m ds,
      Tv.findMarker Tv.episodeAlts
        (Tv.cap_filename_ext (toL "hello s01 e02 hi.mp4")).1 = some m →
      Tv.numFind m = some ds → Tv.parseNat ds ≤ Tv.USIZE_MAX := by
    intro m ds hm hnf
    have h1 : Tv.findMarker Tv.episodeAlts
        (Tv.cap_filename_ext (toL "hello s01 e02 hi.mp4")).1 = some (toL "e02") := by
      decide
    rw [h1, Option.some.injEq] at hm
    subst hm
    have h2 : Tv.numFind (toL "e02") = some (toL "02") := by decide
    rw [h2, Option.some.injEq] at hnf
    rw [← hnf]
    decide
  have hS : ∀ m ds,
      Tv.findMarker Tv.seasonAlts
        (Tv.cap_filename_ext (toL "hello s01 e02 hi.mp4")).1 = some m →
      Tv.numFind m = some ds → Tv.parseNat ds ≤ Tv.USIZE_MAX := by
    intro m ds hm hnf
    have h1 : Tv.findMarker Tv.seasonAlts
        (Tv.cap_filename_ext (toL "hello s01 e02 hi.mp4")).1 = some (toL "s01") := by
      decide
    rw [h1, Option.some.injEq] at hm
    subst hm
    have h2 : Tv.numFind (toL "s01") = some (toL "01") := by decide
    rw [h2, Option.some.injEq] at hnf
    rw [← hnf]
    decide
  exact c10_theorem.2.2 (toL "hello s01 e02 hi.mp4") ⟨none, none⟩ hE hS

/-! ### Song composition -/

/-- C6 (counterexample): for `composeSong("Track.mp3", "The Band", "Track.")`
the NORMALIZED album equals the normalized title "Track", yet the render is
"The Band — Track — Track": the album segment is NOT omitted, because the
code compares the raw album string against the normalized title. -/
theorem c6_counterexample :
    Utils.format_name (toL "Track.") =
      (Music.SingleSong.new (toL "Track.mp3") (some (toL "The Band"))
        (some (toL "Track."))).name ∧
    (Music.SingleSong.new (toL "Track.mp3") (some (toL "The Band"))
        (some (toL "Track."))).render = toL "The Band — Track — Track" ∧
    (Music.SingleSong.new (toL "Track.mp3") (some (toL "The Band"))
        (some (toL "Track."))).render ≠ toL "The Band — Track" := by
  refine ⟨by decide, by decide, by decide⟩

/-- C6 (amended): the album segment is suppressed from the render exactly
when the RAW supplied album string equals the normalized title (not when
their normalized forms agree); when they differ the render includes
`" — <normalized album>"` between the artist segment and the title; the
stored album field is retained either way. -/
theorem c6_theorem (fp : List Char) (artist : Option (List Char)) (al : List Char) :
    (Music.SingleSong.new fp artist (some al)).album = some al ∧
    (al = (Music.SingleSong.new fp artist (some al)).name →
      (Music.SingleSong.new fp artist (some al)).render =
        Music.artistSeg artist ++ Music.emDashSep ++
          (Music.SingleSong.new fp artist (some al)).name) ∧
    (al ≠ (Music.SingleSong.new fp artist (some al)).name →
      (Music.SingleSong.new fp artist (some al)).render =
        Music.artistSeg artist ++ Music.emDashSep ++ Utils.format_name al ++
          Music.emDashSep ++ (Music.SingleSong.new fp artist (some al)).name) := by
  refine ⟨rfl, ?_, ?_⟩
  · intro h
    simp only [Music.SingleSong.new, Music.albumSeg] at h ⊢
    rw [if_neg (fun hh => hh h)]
    simp
  · intro h
    simp only [Music.SingleSong.new, Music.albumSeg] at h ⊢
    rw [if_pos h]
    simp [List.append_assoc]

/-- C6 witness: the amended claim on the spec's own example
`composeSong("Track.mp3", "The Band", "Track")` (suppressed) and on the
near-duplicate album "Track." (included). -/
theorem c6_witness :
    (Music.SingleSong.new (toL "Track.mp3") (some (toL "The Band"))
        (some (toL "Track"))).render =
      Music.artistSeg (some (toL "The Band")) ++ Music.emDashSep ++
        (Music.SingleSong.new (toL "Track.mp3") (some (toL "The Band"))
          (some (toL "Track"))).name ∧
    (Music.SingleSong.new (toL "Track.mp3") (some (toL "The Band"))
        (some (toL "Track."))).render =
      Music.artistSeg (some (toL "The Band")) ++ Music.emDashSep ++
        Utils.format_name (toL "Track.") ++ Music.emDashSep ++
        (Music.SingleSong.new (toL "Track.mp3") (some (toL "The Band"))
          (some (toL "Track."))).name :=
  ⟨(c6_theorem (toL "Track.mp3") (some (toL "The Band")) (toL "Track")).2.1 (by decide),
   (c6_theorem (toL "Track.mp3") (some (toL "The Band")) (toL "Track.")).2.2 (by decide)⟩

/-- C7 (counterexample): the stored artist field is the RAW supplied string
"The.Band", not its normalized form "The Band" as the claim states. -/
theorem c7_counterexample :
    (Music.SingleSong.new (toL "a.mp3") (some (toL "The.Band")) none).artist =
      some (toL "The.Band") ∧
    (Music.SingleSong.new (toL "a.mp3") (some (toL "The.Band")) none).artist ≠
      some (Utils.format_name (toL "The.Band")) := by
  refine ⟨rfl, by decide⟩

/-- C7 (amended): `SingleSong::new` stores the supplied artist and album
VERBATIM (normalization is applied only inside the render); an absent artist
is stored as absent while the render substitutes the fixed placeholder
"Unknown artist"; and `composeSong("My.Song-Title.mp3", None, None)` yields
title "My Song Title" and render "Unknown artist — My Song Title". -/
theorem c7_theorem (fp : List Char) (artist album : Option (List Char)) :
    ((Music.SingleSong.new fp artist album).artist = artist ∧
     (Music.SingleSong.new fp artist album).album = album) ∧
    ((Music.SingleSong.new fp none album).render =
      toL "Unknown artist" ++
        Music.albumSeg album (Music.SingleSong.new fp none album).name ++
        Music.emDashSep ++ (Music.SingleSong.new fp none album).name) ∧
    ((Music.SingleSong.new (toL "My.Song-Title.mp3") none none).name =
      toL "My Song Title" ∧
     (Music.SingleSong.new (toL "My.Song-Title.mp3") none none).render =
      toL "Unknown artist — My Song Title") := by
  refine ⟨⟨rfl, rfl⟩, rfl, by decide, by decide⟩

end Tagzen

